import Mathlib

set_option linter.unusedSectionVars false

/-!
Shallow embedding of `fbr_cache` (src/lib.rs): a fixed-capacity key/value
cache with frequency-based replacement.  Entries are doubly linked into a
recency list (`lru`, most recent first), into one of `C_MAX` per-count
buckets (`chains`), and indexed by a hash map.  Since all shared mutable
nodes are identified by their (unique) key, the embedding represents
  - the hash map as its list of keys,
  - the recency list as the list of entry records (the single source of
    truth for each entry's count/region/value),
  - each bucket as a list of keys,
  - the two region boundary pointers as optional keys.
`total_count` is a Rust `usize`; the only operation on it that can leave
`Nat` range is the subtraction in the aging pass, so it is modelled as an
`Int`, making any underflow visible as a negative value.
-/

/-- Region in which a cache entry currently lives (Rust `enum Region`,
with the derived order `New < Middle < Old`). -/
inductive Region where
  | New
  | Middle
  | Old
deriving DecidableEq, Repr

/-- Numeric index realising the derived `PartialOrd` of the Rust enum. -/
def Region.idx : Region → Nat
  | .New => 0
  | .Middle => 1
  | .Old => 2

/-- Cache entry (Rust `struct FbrEntry`): usage count, region, key, value.
The two intrusive links are represented by membership in the `lru` and
`chains` lists of the cache state. -/
structure FbrEntry (K V : Type) where
  count : Nat
  region : Region
  key : K
  value : V
deriving DecidableEq, Repr

/-- Cache state (Rust `struct FbrCache<K, V, const C_MAX>`); the field
`chains` has length `C`. -/
structure FbrCache (K V : Type) (C : Nat) where
  hash : List K
  lru : List (FbrEntry K V)
  chains : List (List K)
  mid : Nat
  midBoundary : Option K
  old : Nat
  oldBoundary : Option K
  totalCount : Int
  capacity : Nat
  ageThreshold : Nat
deriving DecidableEq, Repr

section Model

variable {K V : Type} [DecidableEq K] {C : Nat}

/-- Rust `FbrCache::with_age_threshold(capacity, age_threshold)`;
`age_threshold` is `capacity.saturating_mul(age_threshold)` on a 64-bit
`usize`. -/
def FbrCache.with_age_threshold (K V : Type) (C : Nat) (capacity ageThreshold : Nat) :
    FbrCache K V C :=
  { hash := []
    lru := []
    chains := List.replicate C []
    mid := capacity * 3 / 10
    midBoundary := none
    old := capacity * 3 / 4
    oldBoundary := none
    totalCount := 0
    capacity := capacity
    ageThreshold := min (capacity * ageThreshold) (2 ^ 64 - 1) }

/-- Dereference an entry pointer: the unique live entry with this key. -/
def lruLookup (lru : List (FbrEntry K V)) (k : K) : Option (FbrEntry K V) :=
  lru.find? (fun e => decide (e.key = k))

/-- Unlink the node with key `k` from an entry list. -/
def removeKey (lru : List (FbrEntry K V)) (k : K) : List (FbrEntry K V) :=
  lru.filter (fun e => decide (e.key ≠ k))

/-- Unlink key `k` from a key list (bucket or hash). -/
def keyRemove (l : List K) (k : K) : List K :=
  l.filter (fun x => decide (x ≠ k))

/-- `HashMap::insert` restricted to its effect on the key set. -/
def keyInsert (l : List K) (k : K) : List K :=
  if k ∈ l then l else k :: l

/-- Helper for `nextKey`. -/
def nextKeyGo (k : K) : List (FbrEntry K V) → Option K
  | [] => none
  | e :: rest => if e.key = k then (rest.head?).map FbrEntry.key else nextKeyGo k rest

/-- Successor of the node `k` in the recency list (cursor `peek_next`,
one step toward the back); `none` when `k` is the back or absent. -/
def nextKey (lru : List (FbrEntry K V)) (k : K) : Option K :=
  nextKeyGo k lru

/-- Helper for `prevKey`: `prev` is the node just before the remaining list. -/
def prevKeyGo (k : K) : FbrEntry K V → List (FbrEntry K V) → Option K
  | _, [] => none
  | prev, e :: rest => if e.key = k then some prev.key else prevKeyGo k e rest

/-- Predecessor of the node `k` in the recency list (cursor `peek_prev`,
one step toward the front); `none` when `k` is the front or absent. -/
def prevKey (lru : List (FbrEntry K V)) (k : K) : Option K :=
  match lru with
  | [] => none
  | e :: rest => if e.key = k then none else prevKeyGo k e rest

/-- Rust `FbrEntry::region`: set the region of the node `k`. -/
def setRegionKey (lru : List (FbrEntry K V)) (k : K) (r : Region) :
    List (FbrEntry K V) :=
  lru.map (fun e => if e.key = k then { e with region := r } else e)

/-- Read bucket `i` (an out-of-range index reads an empty bucket;
in the source an out-of-range index is impossible on the paths used). -/
def chainGet (chains : List (List K)) (i : Nat) : List K :=
  chains.getD i []

/-- Write bucket `i`. -/
def chainSet (chains : List (List K)) (i : Nat) (c : List K) : List (List K) :=
  chains.set i c

/-- Rust `switch_chain`: unlink the node from `chains[old_count]` when
`old_count < C`, then push it onto the front of `chains[new_count]` when
`new_count < C`. -/
def switch_chain (oldCount newCount : Nat) (C : Nat) (chains : List (List K)) (k : K) :
    List (List K) :=
  let chains1 :=
    if oldCount < C then chainSet chains oldCount (keyRemove (chainGet chains oldCount) k)
    else chains
  if newCount < C then chainSet chains1 newCount (k :: chainGet chains1 newCount)
  else chains1

/-- One half of Rust `move_boundaries` (the two `if` blocks share this
shape).  When the boundary exists it steps one node toward the front of
`lru`, marking that node's region `target`; when it does not and the list
has just reached `size + 1` nodes it is born at the back of `lru`.  The
`.unwrap()` calls of the source, which panic on `None`, are modelled as
leaving the state unchanged. -/
def boundaryStep (target : Region) (len size : Nat)
    (lru : List (FbrEntry K V)) (b : Option K) :
    List (FbrEntry K V) × Option K :=
  match b with
  | some m =>
    match prevKey lru m with
    | some p => (setRegionKey lru p target, some p)
    | none => (lru, some m)
  | none =>
    if len = size + 1 then
      match lru.getLast? with
      | some bk => (setRegionKey lru bk.key target, some bk.key)
      | none => (lru, none)
    else (lru, none)

/-- Rust `move_boundaries`: adjust the Middle boundary when the moved
entry came from beyond `New`, then the Old boundary when it came from
beyond `Middle`. -/
def move_boundaries (fromRegion : Region) (len mid old : Nat)
    (lru : List (FbrEntry K V)) (midB oldB : Option K) :
    List (FbrEntry K V) × Option K × Option K :=
  let step1 :=
    if Region.New.idx < fromRegion.idx then boundaryStep Region.Middle len mid lru midB
    else (lru, midB)
  let step2 :=
    if Region.Middle.idx < fromRegion.idx then boundaryStep Region.Old len old step1.1 oldB
    else (step1.1, oldB)
  (step2.1, step1.2, step2.2)

/-- One step of the aging loop in `FbrCache::get`: halve this entry's
count, subtract the difference from `total_count`, and re-home the entry
between buckets; then continue with the rest of the recency list. -/
def agePassGo (C : Nat) :
    List (FbrEntry K V) → List (List K) → Int →
      List (FbrEntry K V) × List (List K) × Int
  | [], chains, total => ([], chains, total)
  | e :: rest, chains, total =>
    let newCount := e.count / 2
    let total1 := total - Int.ofNat (e.count - newCount)
    let chains1 := switch_chain e.count newCount C chains e.key
    let r := agePassGo C rest chains1 total1
    ({ e with count := newCount } :: r.1, r.2)

/-- The aging pass (the `for cde in self.lru.iter()` loop of
`FbrCache::get`): walk the recency list front to back, halving counts. -/
def agePass (s : FbrCache K V C) : FbrCache K V C :=
  let r := agePassGo C s.lru s.chains s.totalCount
  { s with lru := r.1, chains := r.2.1, totalCount := r.2.2 }

/-- The count after `FbrEntry::access`: incremented unless the entry's
region is `New`. -/
def accessNewCount (e : FbrEntry K V) : Nat :=
  if e.region ≠ Region.New then e.count + 1 else e.count

/-- Rust `FbrEntry::access` as a pure function: the updated entry together
with the returned previous count. -/
def FbrEntry.access (e : FbrEntry K V) : FbrEntry K V × Nat :=
  ({ e with count := accessNewCount e, region := Region.New }, e.count)

/-- The boundary adjustment performed before unlinking the node `k` from
the recency list (in `FbrCache::get` and `FbrCache::evict`): a boundary
pointing at `k` advances to the successor of `k`. -/
def boundaryFixup (midB oldB : Option K) (lru : List (FbrEntry K V)) (k : K) :
    Option K × Option K :=
  if midB = some k then (nextKey lru k, oldB)
  else if oldB = some k then (midB, nextKey lru k)
  else (midB, oldB)

/-- The state after the hit path of `FbrCache::get` on the entry `cde`
with key `k`, before the aging check: the entry is accessed (count,
region), re-homed between buckets, moved to the front of `lru` (with the
boundary fixup and `move_boundaries`), and the count delta is added to
`total_count`. -/
def getHitState (s : FbrCache K V C) (k : K) (cde : FbrEntry K V) :
    FbrCache K V C :=
  let newCount := accessNewCount cde
  let chains1 := switch_chain cde.count newCount C s.chains k
  let bfix := boundaryFixup s.midBoundary s.oldBoundary s.lru k
  let lru2 := (FbrEntry.access cde).1 :: removeKey s.lru k
  let mb := move_boundaries cde.region s.hash.length s.mid s.old lru2
    bfix.1 bfix.2
  { s with
    lru := mb.1
    chains := chains1
    midBoundary := mb.2.1
    oldBoundary := mb.2.2
    totalCount := s.totalCount + Int.ofNat (newCount - cde.count) }

/-- The hit path of `FbrCache::get` up to (and including) adding the count
delta to `total_count`, i.e. everything before the aging check.  Returns
`none` on a miss. -/
def FbrCache.getCore (s : FbrCache K V C) (k : K) :
    Option (V × FbrCache K V C) :=
  if k ∈ s.hash then
    match lruLookup s.lru k with
    | none => none
    | some cde => some (cde.value, getHitState s k cde)
  else none

/-- Rust `FbrCache::get`: the hit path followed by the periodic aging
pass when `total_count > age_threshold`. -/
def FbrCache.get (s : FbrCache K V C) (k : K) : Option V × FbrCache K V C :=
  match s.getCore k with
  | none => (none, s)
  | some (v, s1) =>
    (some v, if (s1.ageThreshold : Int) < s1.totalCount then agePass s1 else s1)

/-- The eviction scan of `FbrCache::evict`: walk the buckets in ascending
order; the first bucket whose back node has region `Old` yields that node
(unlinked from the bucket).  Returns the victim entry and the updated
buckets. -/
def scanChainsGo (lru : List (FbrEntry K V)) :
    List (List K) → Option (FbrEntry K V × List (List K))
  | [] => none
  | c :: rest =>
    match c.getLast? with
    | some kc =>
      match lruLookup lru kc with
      | some e =>
        if e.region = Region.Old then some (e, c.dropLast :: rest)
        else (scanChainsGo lru rest).map (fun r => (r.1, c :: r.2))
      | none => (scanChainsGo lru rest).map (fun r => (r.1, c :: r.2))
    | none => (scanChainsGo lru rest).map (fun r => (r.1, c :: r.2))

/-- Rust `FbrCache::evict`: pick the victim (bucket scan, else the back of
`lru`), unlink it from `lru` (adjusting a boundary that pointed at it) and
drop its key from the hash.  Returns `none` exactly when the source would
panic (`.unwrap()` on an empty `lru` with no bucket candidate). -/
def FbrCache.evict (s : FbrCache K V C) :
    Option (FbrEntry K V × FbrCache K V C) :=
  let scanned := scanChainsGo s.lru s.chains
  let chains1 := match scanned with
    | some r => r.2
    | none => s.chains
  let cde? := match scanned with
    | some r => some r.1
    | none => s.lru.getLast?
  match cde? with
  | none => none
  | some cde =>
    let bfix := boundaryFixup s.midBoundary s.oldBoundary s.lru cde.key
    some (cde,
      { s with
        hash := keyRemove s.hash cde.key
        lru := removeKey s.lru cde.key
        chains := chains1
        midBoundary := bfix.1
        oldBoundary := bfix.2 })

/-- Rust `FbrCache::insert`: acquire a node (evicting and reusing when the
cache is full, allocating otherwise), optionally bump its count for
priority insertion, then link it into the hash, the front of `lru`
(adjusting boundaries with `from_region = Old`), and the front of
`chains[count]`.  The unreachable eviction panic (empty `lru` on a full
cache) is modelled as leaving the cache unchanged. -/
def FbrCache.insert (s : FbrCache K V C) (k : K) (v : V) (prio : Bool) :
    FbrCache K V C :=
  let acquired : Option (FbrEntry K V × FbrCache K V C) :=
    if s.capacity ≤ s.hash.length then
      match s.evict with
      | some r =>
        some ({ r.1 with count := 0, region := Region.New, key := k, value := v }, r.2)
      | none => none
    else some ({ count := 0, region := Region.New, key := k, value := v }, s)
  match acquired with
  | none => s
  | some (entry, s1) =>
    let entry1 := if prio then { entry with count := entry.count + 1 } else entry
    let hash1 := keyInsert s1.hash k
    let lru1 := entry1 :: s1.lru
    let mb := move_boundaries Region.Old hash1.length s1.mid s1.old lru1
      s1.midBoundary s1.oldBoundary
    { s1 with
      hash := hash1
      lru := mb.1
      chains := chainSet s1.chains entry1.count (entry1.key :: chainGet s1.chains entry1.count)
      midBoundary := mb.2.1
      oldBoundary := mb.2.2 }

/-- Rust `FbrCache::put`: a hit refreshes via `get` (the stored value is
kept), a miss inserts. -/
def FbrCache.put (s : FbrCache K V C) (k : K) (v : V) : FbrCache K V C :=
  let r := s.get k
  if r.1.isSome then r.2 else r.2.insert k v false

/-- Rust `FbrCache::put_prio`: as `put`, but a miss inserts with priority
(initial count 1). -/
def FbrCache.put_prio (s : FbrCache K V C) (k : K) (v : V) : FbrCache K V C :=
  let r := s.get k
  if r.1.isSome then r.2 else r.2.insert k v true

/-- Rust `FbrCache::len`. -/
def FbrCache.len (s : FbrCache K V C) : Nat :=
  s.hash.length

/-- Rust `FbrCache::is_empty`. -/
def FbrCache.isEmpty (s : FbrCache K V C) : Bool :=
  s.hash.isEmpty

/-- Rust `FbrCache::clear`: empty every structure (each bucket is cleared
in place) and reset `total_count`. -/
def FbrCache.clear (s : FbrCache K V C) : FbrCache K V C :=
  { s with
    hash := []
    lru := []
    chains := s.chains.map (fun _ => ([] : List K))
    midBoundary := none
    oldBoundary := none
    totalCount := 0 }

/-- Rust `FbrCache::iter`: `(key, value, count, region)` in `lru` order. -/
def FbrCache.iterList (s : FbrCache K V C) : List (K × V × Nat × Region) :=
  s.lru.map (fun e => (e.key, e.value, e.count, e.region))

/-- A public mutating operation of the cache. -/
inductive Op (K V : Type) where
  | get (k : K)
  | put (k : K) (v : V)
  | put_prio (k : K) (v : V)
  | clear
deriving DecidableEq, Repr

/-- Run one public operation. -/
def runOp (s : FbrCache K V C) : Op K V → FbrCache K V C
  | .get k => (s.get k).2
  | .put k v => s.put k v
  | .put_prio k v => s.put_prio k v
  | .clear => s.clear

/-- Run a sequence of public operations, oldest first. -/
def runOps (s : FbrCache K V C) (ops : List (Op K V)) : FbrCache K V C :=
  ops.foldl runOp s

/-- States reachable from a legally constructed cache (the documented
requirements: `C_MAX ≥ 2`, `capacity ≥ 4`, `aging_factor ≥ 1`) by public
operations. -/
inductive Reachable (K V : Type) [DecidableEq K] (C : Nat) : FbrCache K V C → Prop where
  | init (capacity factor : Nat) (hC : 2 ≤ C) (hcap : 4 ≤ capacity) (hf : 1 ≤ factor) :
      Reachable K V C (FbrCache.with_age_threshold K V C capacity factor)
  | get (s : FbrCache K V C) (k : K) :
      Reachable K V C s → Reachable K V C (s.get k).2
  | put (s : FbrCache K V C) (k : K) (v : V) :
      Reachable K V C s → Reachable K V C (s.put k v)
  | put_prio (s : FbrCache K V C) (k : K) (v : V) :
      Reachable K V C s → Reachable K V C (s.put_prio k v)
  | clear (s : FbrCache K V C) :
      Reachable K V C s → Reachable K V C s.clear

/-- Projection of an entry to everything except its region, used to state
that an operation changes regions at most. -/
def stripRegion (e : FbrEntry K V) : K × Nat × V :=
  (e.key, e.count, e.value)

/-- The region of the node `k`, read through the key index. -/
def regionOf (lru : List (FbrEntry K V)) (k : K) : Option Region :=
  (lruLookup lru k).map FbrEntry.region

/-- Spec wording of the eviction scan (§4.3 tier 1): walk the buckets in
ascending order and take the back of the first non-empty bucket whose back
element's region is `Old`. -/
def specScanChains (lru : List (FbrEntry K V)) : List (List K) → Option K
  | [] => none
  | c :: rest =>
    match c.getLast? with
    | some kc =>
      if regionOf lru kc = some Region.Old then some kc
      else specScanChains lru rest
    | none => specScanChains lru rest

/-- Spec wording of the eviction choice (§4.3): the tier-1 scan result,
and otherwise the back of `lru`. -/
def specVictim (s : FbrCache K V C) : Option K :=
  match specScanChains s.lru s.chains with
  | some kc => some kc
  | none => (s.lru.getLast?).map FbrEntry.key

/-- `isSubseq a b` decides whether `a` is an (order-preserving)
subsequence of `b`; with distinct keys this is exactly "the elements of
`a` appear in `b` in the same relative order". -/
def isSubseq : List K → List K → Bool
  | [], _ => true
  | _ :: _, [] => false
  | a :: l, b :: m => if a = b then isSubseq l m else isSubseq (a :: l) m

end Model

section ListLemmas

variable {K V : Type} [DecidableEq K] {C : Nat}

theorem keyRemove_cons (a : K) (t : List K) (k : K) :
    keyRemove (a :: t) k = if a = k then keyRemove t k else a :: keyRemove t k := by
  by_cases h : a = k <;> simp [keyRemove, List.filter_cons, h]

theorem keyRemove_eq_of_not_mem {l : List K} {k : K} (h : k ∉ l) :
    keyRemove l k = l := by
  induction l with
  | nil => rfl
  | cons a t ih =>
    rw [keyRemove_cons]
    have ha : a ≠ k := fun hak => h (hak ▸ List.mem_cons_self a t)
    rw [if_neg ha, ih (fun ht => h (List.mem_cons_of_mem a ht))]

theorem mem_keyRemove {x : K} {l : List K} {k : K} :
    x ∈ keyRemove l k ↔ x ∈ l ∧ x ≠ k := by
  simp [keyRemove, List.mem_filter]

theorem nodup_keyRemove {l : List K} (h : l.Nodup) (k : K) :
    (keyRemove l k).Nodup :=
  h.filter _

theorem not_mem_keyRemove_self (l : List K) (k : K) : k ∉ keyRemove l k := by
  intro h
  exact (mem_keyRemove.mp h).2 rfl

theorem length_keyRemove {l : List K} {k : K} (hn : l.Nodup) (hm : k ∈ l) :
    (keyRemove l k).length + 1 = l.length := by
  induction l with
  | nil => cases hm
  | cons a t ih =>
    rcases List.mem_cons.mp hm with rfl | hm'
    · rw [keyRemove_cons, if_pos rfl,
        keyRemove_eq_of_not_mem (List.nodup_cons.mp hn).1]
      simp
    · have ha : a ≠ k := by
        rintro rfl
        exact (List.nodup_cons.mp hn).1 hm'
      rw [keyRemove_cons, if_neg ha]
      simpa using ih (List.nodup_cons.mp hn).2 hm'

theorem removeKey_cons (e : FbrEntry K V) (t : List (FbrEntry K V)) (k : K) :
    removeKey (e :: t) k =
      if e.key = k then removeKey t k else e :: removeKey t k := by
  by_cases h : e.key = k <;> simp [removeKey, List.filter_cons, h]

theorem removeKey_map_key (l : List (FbrEntry K V)) (k : K) :
    (removeKey l k).map FbrEntry.key = keyRemove (l.map FbrEntry.key) k := by
  induction l with
  | nil => rfl
  | cons e t ih =>
    rw [removeKey_cons, List.map_cons, keyRemove_cons]
    by_cases h : e.key = k
    · rw [if_pos h, if_pos h, ih]
    · rw [if_neg h, if_neg h, List.map_cons, ih]

theorem key_ne_of_mem_removeKey {e : FbrEntry K V} {l : List (FbrEntry K V)} {k : K}
    (h : e ∈ removeKey l k) : e.key ≠ k := by
  have := List.of_mem_filter h
  simpa using this

theorem mem_of_mem_removeKey {e : FbrEntry K V} {l : List (FbrEntry K V)} {k : K}
    (h : e ∈ removeKey l k) : e ∈ l :=
  List.mem_of_mem_filter h

theorem mem_keyInsert {x : K} {l : List K} {k : K} :
    x ∈ keyInsert l k ↔ x = k ∨ x ∈ l := by
  by_cases h : k ∈ l
  · simp only [keyInsert, if_pos h]
    constructor
    · exact Or.inr
    · rintro (rfl | hx)
      · exact h
      · exact hx
  · simp [keyInsert, if_neg h]

theorem nodup_keyInsert {l : List K} (hn : l.Nodup) (k : K) :
    (keyInsert l k).Nodup := by
  by_cases h : k ∈ l
  · simpa [keyInsert, if_pos h] using hn
  · simpa [keyInsert, if_neg h, hn] using h

theorem length_keyInsert_of_not_mem {l : List K} {k : K} (h : k ∉ l) :
    (keyInsert l k).length = l.length + 1 := by
  simp [keyInsert, if_neg h]

theorem lruLookup_some {l : List (FbrEntry K V)} {k : K} {e : FbrEntry K V}
    (h : lruLookup l k = some e) : e ∈ l ∧ e.key = k :=
  ⟨List.mem_of_find?_eq_some h, by simpa using List.find?_some h⟩

theorem lruLookup_of_mem {l : List (FbrEntry K V)} {k : K}
    (h : k ∈ l.map FbrEntry.key) : ∃ e, lruLookup l k = some e := by
  induction l with
  | nil => simp at h
  | cons a t ih =>
    by_cases hk : a.key = k
    · exact ⟨a, by simp [lruLookup, List.find?_cons, hk]⟩
    · simp only [List.map_cons, List.mem_cons] at h
      rcases h with h | h


      · exact absurd h.symm hk
      · rcases ih h with ⟨e, he⟩
        refine ⟨e, ?_⟩
        simpa [lruLookup, List.find?_cons, hk] using he

end ListLemmas

section FrameLemmas

variable {K V : Type} [DecidableEq K] {C : Nat}

theorem setRegionKey_strip (l : List (FbrEntry K V)) (k : K) (r : Region) :
    (setRegionKey l k r).map stripRegion = l.map stripRegion := by
  simp only [setRegionKey, List.map_map]
  apply List.map_congr_left
  intro e _
  by_cases h : e.key = k <;> simp [stripRegion, h]

theorem strip_map_key {l l' : List (FbrEntry K V)}
    (h : l.map stripRegion = l'.map stripRegion) :
    l.map FbrEntry.key = l'.map FbrEntry.key := by
  have h2 := congrArg (List.map Prod.fst) h
  simpa [List.map_map, Function.comp_def, stripRegion] using h2

theorem strip_length {l l' : List (FbrEntry K V)}
    (h : l.map stripRegion = l'.map stripRegion) :
    l.length = l'.length := by
  have h2 := congrArg List.length h
  simpa using h2

theorem getLast?_mem {l : List K} {a : K} (h : l.getLast? = some a) : a ∈ l := by
  rcases List.mem_getLast?_eq_getLast (l := l) (x := a) h with ⟨hne, rfl⟩
  exact List.getLast_mem hne

theorem entry_getLast?_mem {l : List (FbrEntry K V)} {e : FbrEntry K V}
    (h : l.getLast? = some e) : e ∈ l := by
  rcases List.mem_getLast?_eq_getLast (l := l) (x := e) h with ⟨hne, rfl⟩
  exact List.getLast_mem hne

theorem prevKeyGo_cases {k p : K} {pr : FbrEntry K V} {l : List (FbrEntry K V)}
    (h : prevKeyGo k pr l = some p) :
    ((l.head?).map FbrEntry.key = some k ∧ p = pr.key) ∨ ∃ e ∈ l, p = e.key := by
  induction l generalizing pr with
  | nil => cases h
  | cons e t ih =>
    rw [prevKeyGo] at h
    by_cases he : e.key = k
    · rw [if_pos he] at h
      exact Or.inl ⟨by simp [he], (Option.some.inj h).symm⟩
    · rw [if_neg he] at h
      rcases ih h with ⟨_, rfl⟩ | ⟨e', he', rfl⟩
      · exact Or.inr ⟨e, List.mem_cons_self e t, rfl⟩
      · exact Or.inr ⟨e', List.mem_cons_of_mem e he', rfl⟩

theorem setRegionKey_cons_of_ne {E : FbrEntry K V} {rest : List (FbrEntry K V)}
    {p : K} (hpE : E.key ≠ p) (r : Region) :
    setRegionKey (E :: rest) p r = E :: setRegionKey rest p r := by
  simp [setRegionKey, hpE]

theorem boundaryStep_cons (target : Region) (len size : Nat) (E : FbrEntry K V)
    (rest : List (FbrEntry K V)) (b : Option K)
    (hkey : ∀ e ∈ rest, e.key ≠ E.key)
    (hb : ∀ m, b = some m → (rest.head?).map FbrEntry.key ≠ some m)
    (hrest : rest ≠ []) :
    ∃ rest', (boundaryStep target len size (E :: rest) b).1 = E :: rest'
      ∧ rest'.map stripRegion = rest.map stripRegion := by
  cases b with
  | some m =>
    simp only [boundaryStep, prevKey]
    by_cases hEm : E.key = m
    · rw [if_pos hEm]
      exact ⟨rest, rfl, rfl⟩
    · rw [if_neg hEm]
      cases hp : prevKeyGo m E rest with
      | none => exact ⟨rest, rfl, rfl⟩
      | some p =>
        have hpE : p ≠ E.key := by
          rcases prevKeyGo_cases hp with ⟨hhead, rfl⟩ | ⟨e, he, rfl⟩
          · exact absurd hhead (hb m rfl)
          · exact hkey e he
        dsimp only
        rw [setRegionKey_cons_of_ne (Ne.symm hpE)]
        exact ⟨setRegionKey rest p target, rfl, setRegionKey_strip rest p target⟩
  | none =>
    simp only [boundaryStep]
    by_cases hlen : len = size + 1
    · rw [if_pos hlen]
      match rest, hrest with
      | e :: t, _ =>
        rw [List.getLast?_cons_cons]
        cases hg : (e :: t).getLast? with
        | none => simp at hg
        | some bk =>
          have hbkE : bk.key ≠ E.key := hkey bk (entry_getLast?_mem hg)
          dsimp only
          rw [setRegionKey_cons_of_ne (Ne.symm hbkE)]
          exact ⟨setRegionKey (e :: t) bk.key target, rfl, setRegionKey_strip _ _ _⟩
    · rw [if_neg hlen]
      exact ⟨rest, rfl, rfl⟩

theorem boundaryStep_strip (target : Region) (len size : Nat)
    (lru : List (FbrEntry K V)) (b : Option K) :
    ((boundaryStep target len size lru b).1).map stripRegion = lru.map stripRegion := by
  cases b with
  | some m =>
    simp only [boundaryStep]
    cases prevKey lru m with
    | some p => exact setRegionKey_strip lru p target
    | none => rfl
  | none =>
    simp only [boundaryStep]
    by_cases hlen : len = size + 1
    · rw [if_pos hlen]
      cases lru.getLast? with
      | some bk => exact setRegionKey_strip lru bk.key target
      | none => rfl
    · rw [if_neg hlen]

theorem move_boundaries_strip (fr : Region) (len mid old : Nat)
    (lru : List (FbrEntry K V)) (mb ob : Option K) :
    ((move_boundaries fr len mid old lru mb ob).1).map stripRegion
      = lru.map stripRegion := by
  rw [move_boundaries]
  by_cases h1 : Region.New.idx < fr.idx <;>
    by_cases h2 : Region.Middle.idx < fr.idx <;>
      simp only [h1, h2, if_true, if_false, boundaryStep_strip]

theorem move_boundaries_map_key (fr : Region) (len mid old : Nat)
    (lru : List (FbrEntry K V)) (mb ob : Option K) :
    ((move_boundaries fr len mid old lru mb ob).1).map FbrEntry.key
      = lru.map FbrEntry.key :=
  strip_map_key (move_boundaries_strip fr len mid old lru mb ob)

theorem move_boundaries_length (fr : Region) (len mid old : Nat)
    (lru : List (FbrEntry K V)) (mb ob : Option K) :
    ((move_boundaries fr len mid old lru mb ob).1).length = lru.length :=
  strip_length (move_boundaries_strip fr len mid old lru mb ob)

theorem agePassGo_fst (C : Nat) (l : List (FbrEntry K V)) (ch : List (List K)) (t : Int) :
    (agePassGo C l ch t).1 = l.map (fun e => { e with count := e.count / 2 }) := by
  induction l generalizing ch t with
  | nil => rfl
  | cons e rest ih => rw [agePassGo, ih, List.map_cons]

/-- Total decrement of the aging pass: the sum of `count - count / 2` over
the recency list. -/
def sumAgeDelta (l : List (FbrEntry K V)) : Int :=
  (l.map (fun e => Int.ofNat (e.count - e.count / 2))).sum

theorem agePassGo_total (C : Nat) (l : List (FbrEntry K V)) (ch : List (List K)) (t : Int) :
    (agePassGo C l ch t).2.2 = t - sumAgeDelta l := by
  induction l generalizing ch t with
  | nil => simp [agePassGo, sumAgeDelta]
  | cons e rest ih =>
    rw [agePassGo]
    dsimp only
    rw [ih]
    simp only [sumAgeDelta, List.map_cons, List.sum_cons]
    ring

theorem agePass_lru (s : FbrCache K V C) :
    (agePass s).lru = s.lru.map (fun e => { e with count := e.count / 2 }) := by
  rw [agePass]
  exact agePassGo_fst C s.lru s.chains s.totalCount

theorem agePass_totalCount (s : FbrCache K V C) :
    (agePass s).totalCount = s.totalCount - sumAgeDelta s.lru := by
  rw [agePass]
  exact agePassGo_total C s.lru s.chains s.totalCount

theorem agePass_map_key (s : FbrCache K V C) :
    (agePass s).lru.map FbrEntry.key = s.lru.map FbrEntry.key := by
  rw [agePass_lru, List.map_map]
  rfl

theorem agePass_hash (s : FbrCache K V C) : (agePass s).hash = s.hash := rfl

theorem agePass_length (s : FbrCache K V C) :
    (agePass s).lru.length = s.lru.length := by
  rw [agePass_lru, List.length_map]

theorem forall_key_of_map_key_eq {l l' : List (FbrEntry K V)} {P : K → Prop}
    (h : l.map FbrEntry.key = l'.map FbrEntry.key)
    (hP : ∀ e ∈ l', P e.key) : ∀ e ∈ l, P e.key := by
  intro e he
  have hmem : e.key ∈ l'.map FbrEntry.key := h ▸ List.mem_map_of_mem FbrEntry.key he
  rcases List.mem_map.mp hmem with ⟨e', he', hk⟩
  exact hk ▸ hP e' he'

theorem head_key_of_map_key_eq {l l' : List (FbrEntry K V)}
    (h : l.map FbrEntry.key = l'.map FbrEntry.key) :
    (l.head?).map FbrEntry.key = (l'.head?).map FbrEntry.key := by
  have h2 := congrArg List.head? h
  simpa [List.head?_map] using h2

theorem ne_nil_of_map_key_eq {l l' : List (FbrEntry K V)}
    (h : l.map FbrEntry.key = l'.map FbrEntry.key) (hne : l' ≠ []) : l ≠ [] := by
  intro hnil
  apply hne
  have := congrArg List.length h
  simp only [List.length_map] at this
  exact List.length_eq_zero.mp (by rw [← this, hnil]; rfl)

theorem move_boundaries_cons (fr : Region) (len mid old : Nat)
    (E : FbrEntry K V) (rest : List (FbrEntry K V)) (mb ob : Option K)
    (hkey : ∀ e ∈ rest, e.key ≠ E.key)
    (hmb : ∀ m, mb = some m → (rest.head?).map FbrEntry.key ≠ some m)
    (hob : ∀ o, ob = some o → (rest.head?).map FbrEntry.key ≠ some o)
    (hrest : Region.New.idx < fr.idx → rest ≠ []) :
    ∃ rest', (move_boundaries fr len mid old (E :: rest) mb ob).1 = E :: rest'
      ∧ rest'.map stripRegion = rest.map stripRegion := by
  cases fr with
  | New => exact ⟨rest, rfl, rfl⟩
  | Middle =>
    rcases boundaryStep_cons Region.Middle len mid E rest mb hkey hmb
      (hrest (by decide)) with ⟨rest1, h1, hs1⟩
    rw [move_boundaries]
    dsimp only
    rw [if_neg (by decide), if_pos (by decide), h1]
    exact ⟨rest1, rfl, hs1⟩
  | Old =>
    rcases boundaryStep_cons Region.Middle len mid E rest mb hkey hmb
      (hrest (by decide)) with ⟨rest1, h1, hs1⟩
    have hkey1 : ∀ e ∈ rest1, e.key ≠ E.key :=
      forall_key_of_map_key_eq (P := fun x => x ≠ E.key) (strip_map_key hs1) hkey
    have hob1 : ∀ o, ob = some o → (rest1.head?).map FbrEntry.key ≠ some o := by
      intro o ho
      rw [head_key_of_map_key_eq (strip_map_key hs1)]
      exact hob o ho
    have hrest1 : rest1 ≠ [] :=
      ne_nil_of_map_key_eq (strip_map_key hs1) (hrest (by decide))
    rcases boundaryStep_cons Region.Old len old E rest1 ob hkey1 hob1 hrest1 with
      ⟨rest2, h2, hs2⟩
    rw [move_boundaries]
    dsimp only
    rw [if_pos (by decide), if_pos (by decide), h1, h2]
    exact ⟨rest2, rfl, hs2.trans hs1⟩

end FrameLemmas

section OpLemmas

variable {K V : Type} [DecidableEq K] {C : Nat}

theorem getCore_hit {s : FbrCache K V C} {k : K} {e : FbrEntry K V}
    (hm : k ∈ s.hash) (hl : lruLookup s.lru k = some e) :
    s.getCore k = some (e.value, getHitState s k e) := by
  rw [FbrCache.getCore, if_pos hm, hl]

theorem getCore_none_cases {s : FbrCache K V C} {k : K}
    (h : s.getCore k = none) : k ∉ s.hash ∨ lruLookup s.lru k = none := by
  by_cases hm : k ∈ s.hash
  · right
    cases hl : lruLookup s.lru k with
    | none => rfl
    | some e => rw [getCore_hit hm hl] at h; cases h
  · exact Or.inl hm

theorem getCore_not_mem {s : FbrCache K V C} {k : K} (hm : k ∉ s.hash) :
    s.getCore k = none := by
  rw [FbrCache.getCore, if_neg hm]

theorem get_of_getCore_none {s : FbrCache K V C} {k : K}
    (h : s.getCore k = none) : s.get k = (none, s) := by
  rw [FbrCache.get, h]

theorem get_of_getCore_some {s : FbrCache K V C} {k : K} {v : V}
    {s1 : FbrCache K V C} (h : s.getCore k = some (v, s1)) :
    s.get k = (some v,
      if (s1.ageThreshold : Int) < s1.totalCount then agePass s1 else s1) := by
  rw [FbrCache.get, h]

theorem getCore_of_get_none {s : FbrCache K V C} {k : K}
    (h : (s.get k).1 = none) : s.getCore k = none := by
  cases hc : s.getCore k with
  | none => rfl
  | some r =>
    obtain ⟨v, s1⟩ := r
    rw [get_of_getCore_some hc] at h
    cases h

theorem getHitState_hash (s : FbrCache K V C) (k : K) (e : FbrEntry K V) :
    (getHitState s k e).hash = s.hash := rfl

theorem getHitState_capacity (s : FbrCache K V C) (k : K) (e : FbrEntry K V) :
    (getHitState s k e).capacity = s.capacity := rfl

theorem getHitState_ageThreshold (s : FbrCache K V C) (k : K) (e : FbrEntry K V) :
    (getHitState s k e).ageThreshold = s.ageThreshold := rfl

theorem getHitState_totalCount (s : FbrCache K V C) (k : K) (e : FbrEntry K V) :
    (getHitState s k e).totalCount
      = s.totalCount + Int.ofNat (accessNewCount e - e.count) := rfl

theorem getHitState_map_key {s : FbrCache K V C} {k : K} {e : FbrEntry K V}
    (he : e.key = k) :
    (getHitState s k e).lru.map FbrEntry.key
      = k :: keyRemove (s.lru.map FbrEntry.key) k := by
  show ((move_boundaries _ _ _ _ _ _ _).1).map FbrEntry.key = _
  rw [move_boundaries_map_key, List.map_cons, removeKey_map_key]
  simp [FbrEntry.access, he]

theorem scanChainsGo_some_mem {lru : List (FbrEntry K V)} :
    ∀ {cs : List (List K)} {r : FbrEntry K V × List (List K)},
      scanChainsGo lru cs = some r → r.1 ∈ lru := by
  intro cs
  induction cs with
  | nil => intro r h; cases h
  | cons c rest ih =>
    intro r h
    rw [scanChainsGo] at h
    cases hg : c.getLast? with
    | none =>
      rw [hg] at h
      dsimp only at h
      rcases Option.map_eq_some'.mp h with ⟨r', hr', hre⟩
      rw [← hre]
      exact ih (r := r') hr'
    | some kc =>
      rw [hg] at h
      dsimp only at h
      cases hl : lruLookup lru kc with
      | none =>
        rw [hl] at h
        dsimp only at h
        rcases Option.map_eq_some'.mp h with ⟨r', hr', hre⟩
        rw [← hre]
        exact ih (r := r') hr'
      | some e =>
        rw [hl] at h
        dsimp only at h
        by_cases hr : e.region = Region.Old
        · rw [if_pos hr] at h
          cases h
          exact (lruLookup_some hl).1
        · rw [if_neg hr] at h
          rcases Option.map_eq_some'.mp h with ⟨r', hr', hre⟩
          rw [← hre]
          exact ih (r := r') hr'

theorem scanChainsGo_eq_spec (lru : List (FbrEntry K V)) :
    ∀ cs : List (List K),
      (scanChainsGo lru cs).map (fun r => r.1.key) = specScanChains lru cs := by
  intro cs
  induction cs with
  | nil => rfl
  | cons c rest ih =>
    rw [scanChainsGo, specScanChains]
    cases hg : c.getLast? with
    | none =>
      dsimp only
      rw [Option.map_map]
      exact ih
    | some kc =>
      dsimp only
      cases hl : lruLookup lru kc with
      | none =>
        dsimp only
        have hro : regionOf lru kc = none := by rw [regionOf, hl]; rfl
        rw [hro]
        rw [if_neg (by simp)]
        rw [Option.map_map]
        exact ih
      | some e =>
        dsimp only
        have hro : regionOf lru kc = some e.region := by rw [regionOf, hl]; rfl
        rw [hro]
        by_cases hr : e.region = Region.Old
        · rw [if_pos hr, if_pos (by rw [hr])]
          dsimp only [Option.map_some']
          rw [(lruLookup_some hl).2]
        · rw [if_neg hr, if_neg (by simpa using hr)]
          rw [Option.map_map]
          exact ih

theorem evict_eq_some {s : FbrCache K V C} {e : FbrEntry K V} {s1 : FbrCache K V C}
    (h : s.evict = some (e, s1)) :
    e ∈ s.lru ∧ s1.hash = keyRemove s.hash e.key ∧ s1.lru = removeKey s.lru e.key
      ∧ s1.capacity = s.capacity ∧ s1.mid = s.mid ∧ s1.old = s.old
      ∧ s1.ageThreshold = s.ageThreshold ∧ s1.totalCount = s.totalCount := by
  simp only [FbrCache.evict] at h
  cases hscan : scanChainsGo s.lru s.chains with
  | some r =>
    rw [hscan] at h
    dsimp only at h
    have h2 := Option.some.inj h
    have he : r.1 = e := congrArg Prod.fst h2
    have hs : _ = s1 := congrArg Prod.snd h2
    rw [← hs, ← he]
    exact ⟨scanChainsGo_some_mem hscan, rfl, rfl, rfl, rfl, rfl, rfl, rfl⟩
  | none =>
    rw [hscan] at h
    dsimp only at h
    cases hlast : s.lru.getLast? with
    | none => rw [hlast] at h; cases h
    | some cde =>
      rw [hlast] at h
      dsimp only at h
      have h2 := Option.some.inj h
      have he : cde = e := congrArg Prod.fst h2
      have hs : _ = s1 := congrArg Prod.snd h2
      rw [← hs, ← he]
      exact ⟨entry_getLast?_mem hlast, rfl, rfl, rfl, rfl, rfl, rfl, rfl⟩

theorem evict_total {s : FbrCache K V C} (hne : s.lru ≠ []) :
    ∃ r, s.evict = some r := by
  simp only [FbrCache.evict]
  cases hscan : scanChainsGo s.lru s.chains with
  | some r => exact ⟨_, rfl⟩
  | none =>
    cases hlast : s.lru.getLast? with
    | none => exact absurd (List.getLast?_eq_none_iff.mp hlast) hne
    | some cde => exact ⟨_, rfl⟩

theorem insert_of_full {s : FbrCache K V C} (k : K) (v : V) (prio : Bool)
    {e : FbrEntry K V} {s1 : FbrCache K V C}
    (hfull : s.capacity ≤ s.hash.length) (hev : s.evict = some (e, s1)) :
    (s.insert k v prio).hash = keyInsert s1.hash k
      ∧ (s.insert k v prio).lru.map FbrEntry.key = k :: s1.lru.map FbrEntry.key
      ∧ (s.insert k v prio).capacity = s1.capacity := by
  refine ⟨?_, ?_, ?_⟩
  · simp only [FbrCache.insert, if_pos hfull, hev]
  · simp only [FbrCache.insert, if_pos hfull, hev]
    rw [move_boundaries_map_key, List.map_cons]
    by_cases hp : prio <;> simp [hp]
  · simp only [FbrCache.insert, if_pos hfull, hev]

theorem insert_of_not_full {s : FbrCache K V C} (k : K) (v : V) (prio : Bool)
    (hlt : s.hash.length < s.capacity) :
    (s.insert k v prio).hash = keyInsert s.hash k
      ∧ (s.insert k v prio).lru.map FbrEntry.key = k :: s.lru.map FbrEntry.key
      ∧ (s.insert k v prio).capacity = s.capacity := by
  refine ⟨?_, ?_, ?_⟩
  · simp only [FbrCache.insert, if_neg (Nat.not_le.mpr hlt)]
  · simp only [FbrCache.insert, if_neg (Nat.not_le.mpr hlt)]
    rw [move_boundaries_map_key, List.map_cons]
    by_cases hp : prio <;> simp [hp]
  · simp only [FbrCache.insert, if_neg (Nat.not_le.mpr hlt)]

theorem put_of_hit {s : FbrCache K V C} {k : K} {w : V} (v : V)
    (h : (s.get k).1 = some w) : s.put k v = (s.get k).2 := by
  rw [FbrCache.put]
  rw [h]
  rfl

theorem put_prio_of_hit {s : FbrCache K V C} {k : K} {w : V} (v : V)
    (h : (s.get k).1 = some w) : s.put_prio k v = (s.get k).2 := by
  rw [FbrCache.put_prio]
  rw [h]
  rfl

theorem put_of_miss {s : FbrCache K V C} {k : K} (v : V)
    (h : s.getCore k = none) : s.put k v = s.insert k v false := by
  rw [FbrCache.put]
  rw [get_of_getCore_none h]
  rfl

theorem put_prio_of_miss {s : FbrCache K V C} {k : K} (v : V)
    (h : s.getCore k = none) : s.put_prio k v = s.insert k v true := by
  rw [FbrCache.put_prio]
  rw [get_of_getCore_none h]
  rfl

end OpLemmas

section Invariant

variable {K V : Type} [DecidableEq K] {C : Nat}

/-- Structural well-formedness of a cache state: keys are unique, the hash
key set coincides with the keys on the recency list, the two sizes agree
and are bounded by the capacity, and the capacity is positive. -/
structure CacheInv (s : FbrCache K V C) : Prop where
  nodupKeys : (s.lru.map FbrEntry.key).Nodup
  nodupHash : s.hash.Nodup
  memIff : ∀ x : K, x ∈ s.hash ↔ x ∈ s.lru.map FbrEntry.key
  lenEq : s.hash.length = s.lru.length
  lenLe : s.lru.length ≤ s.capacity
  capPos : 1 ≤ s.capacity

theorem CacheInv_promote {s s' : FbrCache K V C} {k : K} (hI : CacheInv s)
    (hh : s'.hash = s.hash) (hc : s'.capacity = s.capacity)
    (hk : k ∈ s.lru.map FbrEntry.key)
    (hmap : s'.lru.map FbrEntry.key = k :: keyRemove (s.lru.map FbrEntry.key) k) :
    CacheInv s' := by
  have hlen' : s'.lru.length = s.lru.length := by
    have h1 := congrArg List.length hmap
    have h2 := length_keyRemove hI.nodupKeys hk
    simp only [List.length_map, List.length_cons] at h1 h2
    omega
  constructor
  · rw [hmap]
    exact List.nodup_cons.mpr ⟨not_mem_keyRemove_self _ _, nodup_keyRemove hI.nodupKeys k⟩
  · rw [hh]
    exact hI.nodupHash
  · intro x
    rw [hh, hmap]
    constructor
    · intro hx
      by_cases hxk : x = k
      · exact hxk ▸ List.mem_cons_self _ _
      · exact List.mem_cons_of_mem _ (mem_keyRemove.mpr ⟨(hI.memIff x).mp hx, hxk⟩)
    · intro hx
      rcases List.mem_cons.mp hx with rfl | hx
      · exact (hI.memIff x).mpr hk
      · exact (hI.memIff x).mpr (mem_keyRemove.mp hx).1
  · rw [hh, hlen', hI.lenEq]
  · rw [hlen', hc]
    exact hI.lenLe
  · rw [hc]
    exact hI.capPos

theorem CacheInv_agePass {s : FbrCache K V C} (hI : CacheInv s) :
    CacheInv (agePass s) := by
  constructor
  · rw [agePass_map_key]
    exact hI.nodupKeys
  · exact hI.nodupHash
  · intro x
    rw [agePass_hash, agePass_map_key]
    exact hI.memIff x
  · rw [agePass_hash, agePass_length]
    exact hI.lenEq
  · rw [agePass_length]
    exact hI.lenLe
  · exact hI.capPos

theorem CacheInv_get {s : FbrCache K V C} (hI : CacheInv s) (k : K) :
    CacheInv ((s.get k).2) := by
  cases hc : s.getCore k with
  | none =>
    rw [get_of_getCore_none hc]
    exact hI
  | some r =>
    obtain ⟨v, s1⟩ := r
    by_cases hm : k ∈ s.hash
    · cases hl : lruLookup s.lru k with
      | none => rw [FbrCache.getCore, if_pos hm, hl] at hc; cases hc
      | some e =>
        rw [getCore_hit hm hl] at hc
        have hs1 : getHitState s k e = s1 := congrArg Prod.snd (Option.some.inj hc)
        have hek : e.key = k := (lruLookup_some hl).2
        have hkmem : k ∈ s.lru.map FbrEntry.key :=
          hek ▸ List.mem_map_of_mem FbrEntry.key (lruLookup_some hl).1
        have hI1 : CacheInv s1 := by
          refine CacheInv_promote hI ?_ ?_ hkmem ?_
          · rw [← hs1]; rfl
          · rw [← hs1]; rfl
          · rw [← hs1]; exact getHitState_map_key hek
        rw [get_of_getCore_some (getCore_hit hm hl), hs1]
        dsimp only
        by_cases ht : (s1.ageThreshold : Int) < s1.totalCount
        · rw [if_pos ht]
          exact CacheInv_agePass hI1
        · rw [if_neg ht]
          exact hI1
    · rw [getCore_not_mem hm] at hc
      cases hc

theorem CacheInv_insert {s : FbrCache K V C} (hI : CacheInv s) {k : K} (v : V)
    (prio : Bool) (hk : k ∉ s.hash) : CacheInv (s.insert k v prio) := by
  have hkk : k ∉ s.lru.map FbrEntry.key := fun h => hk ((hI.memIff k).mpr h)
  by_cases hfull : s.capacity ≤ s.hash.length
  · have hlru_ne : s.lru ≠ [] := by
      intro hnil
      have h0 : s.hash.length = 0 := by rw [hI.lenEq, hnil]; rfl
      have := hI.capPos
      omega
    rcases evict_total hlru_ne with ⟨⟨e, s1⟩, hev⟩
    rcases evict_eq_some hev with ⟨hmem, hhash1, hlru1, hcap1, _, _, _, _⟩
    rcases insert_of_full k v prio hfull hev with ⟨hh, hm, hc⟩
    have hvk_mem : e.key ∈ s.lru.map FbrEntry.key := List.mem_map_of_mem FbrEntry.key hmem
    have hvk_hash : e.key ∈ s.hash := (hI.memIff e.key).mpr hvk_mem
    have hs1keys : s1.lru.map FbrEntry.key = keyRemove (s.lru.map FbrEntry.key) e.key := by
      rw [hlru1, removeKey_map_key]
    have hknotin1 : k ∉ s1.hash := by
      rw [hhash1]
      intro hmem1
      exact hk (mem_keyRemove.mp hmem1).1
    have hlen1 : s1.hash.length + 1 = s.hash.length := by
      rw [hhash1]
      exact length_keyRemove hI.nodupHash hvk_hash
    have hlenlru1 : s1.lru.length + 1 = s.lru.length := by
      have h2 := length_keyRemove hI.nodupKeys hvk_mem
      have h3 := congrArg List.length hs1keys
      simp only [List.length_map] at h2 h3
      omega
    constructor
    · rw [hm]
      refine List.nodup_cons.mpr ⟨?_, ?_⟩
      · rw [hs1keys]
        intro hmem1
        exact hkk (mem_keyRemove.mp hmem1).1
      · rw [hs1keys]
        exact nodup_keyRemove hI.nodupKeys e.key
    · rw [hh]
      rw [hhash1]
      exact nodup_keyInsert (nodup_keyRemove hI.nodupHash e.key) k
    · intro x
      rw [hh, hm, mem_keyInsert, List.mem_cons, hhash1, hs1keys, mem_keyRemove,
        mem_keyRemove, hI.memIff x]
    · rw [hh, length_keyInsert_of_not_mem hknotin1]
      have h3 := congrArg List.length hm
      simp only [List.length_map, List.length_cons] at h3
      have h4 := hlen1
      have h5 := hlenlru1
      have h6 := hI.lenEq
      omega
    · have h3 := congrArg List.length hm
      simp only [List.length_map, List.length_cons] at h3
      rw [hc, hcap1]
      have h4 := hlenlru1
      have h5 := hI.lenLe
      omega
    · rw [hc, hcap1]
      exact hI.capPos
  · have hlt : s.hash.length < s.capacity := Nat.lt_of_not_le hfull
    rcases insert_of_not_full k v prio hlt with ⟨hh, hm, hc⟩
    constructor
    · rw [hm]
      exact List.nodup_cons.mpr ⟨hkk, hI.nodupKeys⟩
    · rw [hh]
      exact nodup_keyInsert hI.nodupHash k
    · intro x
      rw [hh, hm, mem_keyInsert, List.mem_cons, hI.memIff x]
    · rw [hh, length_keyInsert_of_not_mem hk]
      have h3 := congrArg List.length hm
      simp only [List.length_map, List.length_cons] at h3
      have h4 := hI.lenEq
      omega
    · have h3 := congrArg List.length hm
      simp only [List.length_map, List.length_cons] at h3
      rw [hc]
      have h4 := hI.lenEq
      have h5 := hlt
      omega
    · rw [hc]
      exact hI.capPos

theorem CacheInv_put {s : FbrCache K V C} (hI : CacheInv s) (k : K) (v : V) :
    CacheInv (s.put k v) := by
  cases hg : (s.get k).1 with
  | some w =>
    rw [put_of_hit v hg]
    exact CacheInv_get hI k
  | none =>
    have hc := getCore_of_get_none hg
    rw [put_of_miss v hc]
    have hk : k ∉ s.hash := by
      rcases getCore_none_cases hc with h | h
      · exact h
      · intro hmem
        rcases lruLookup_of_mem ((hI.memIff k).mp hmem) with ⟨e, he⟩
        rw [he] at h
        cases h
    exact CacheInv_insert hI v false hk

theorem CacheInv_put_prio {s : FbrCache K V C} (hI : CacheInv s) (k : K) (v : V) :
    CacheInv (s.put_prio k v) := by
  cases hg : (s.get k).1 with
  | some w =>
    rw [put_prio_of_hit v hg]
    exact CacheInv_get hI k
  | none =>
    have hc := getCore_of_get_none hg
    rw [put_prio_of_miss v hc]
    have hk : k ∉ s.hash := by
      rcases getCore_none_cases hc with h | h
      · exact h
      · intro hmem
        rcases lruLookup_of_mem ((hI.memIff k).mp hmem) with ⟨e, he⟩
        rw [he] at h
        cases h
    exact CacheInv_insert hI v true hk

theorem CacheInv_clear {s : FbrCache K V C} (hI : CacheInv s) :
    CacheInv s.clear := by
  constructor <;> simp [FbrCache.clear]
  exact hI.capPos

theorem Reachable_CacheInv {s : FbrCache K V C} (h : Reachable K V C s) :
    CacheInv s := by
  induction h with
  | init capacity factor hC hcap hf =>
    constructor <;> simp [FbrCache.with_age_threshold]
    omega
  | get s k _ ih => exact CacheInv_get ih k
  | put s k v _ ih => exact CacheInv_put ih k v
  | put_prio s k v _ ih => exact CacheInv_put_prio ih k v
  | clear s _ ih => exact CacheInv_clear ih

end Invariant

section MoreLemmas

variable {K V : Type} [DecidableEq K] {C : Nat}

/-- Projection of an entry to its key and value. -/
def keyValue (e : FbrEntry K V) : K × V :=
  (e.key, e.value)

theorem strip_map_keyValue {l l' : List (FbrEntry K V)}
    (h : l.map stripRegion = l'.map stripRegion) :
    l.map keyValue = l'.map keyValue := by
  have h2 := congrArg (List.map (fun p : K × Nat × V => (p.1, p.2.2))) h
  simpa [List.map_map, Function.comp_def, stripRegion, keyValue] using h2

theorem agePass_map_keyValue (s : FbrCache K V C) :
    (agePass s).lru.map keyValue = s.lru.map keyValue := by
  rw [agePass_lru, List.map_map]
  rfl

theorem map_keyValue_head {l : List (FbrEntry K V)} {p : K × V}
    {ps : List (K × V)} (h : l.map keyValue = p :: ps) :
    (l.head?).map keyValue = some p := by
  cases l with
  | nil => cases h
  | cons e t =>
    rw [List.map_cons] at h
    rw [List.head?_cons, Option.map_some']
    exact congrArg some (List.head_eq_of_cons_eq h)

theorem strip_head_keyValue {l : List (FbrEntry K V)} {a : K} {b : Nat} {c : V}
    {rest : List (K × Nat × V)}
    (h : l.map stripRegion = (a, b, c) :: rest) :
    (l.head?).map keyValue = some (a, c) := by
  cases l with
  | nil => cases h
  | cons e t =>
    rw [List.map_cons] at h
    have he : stripRegion e = (a, b, c) := List.head_eq_of_cons_eq h
    rw [List.head?_cons, Option.map_some']
    have h1 : e.key = a := congrArg Prod.fst he
    have h2 : e.value = c := congrArg (fun p : K × Nat × V => p.2.2) he
    rw [keyValue, h1, h2]

theorem strip_cons_keyValue {l t : List (FbrEntry K V)} {a : K} {b : Nat} {c : V}
    (h : l.map stripRegion = (a, b, c) :: t.map stripRegion) :
    l.map keyValue = (a, c) :: t.map keyValue := by
  cases l with
  | nil => cases h
  | cons e r =>
    rw [List.map_cons] at h
    rw [List.map_cons]
    have h1 : stripRegion e = (a, b, c) := List.head_eq_of_cons_eq h
    have h2 : r.map stripRegion = t.map stripRegion := List.tail_eq_of_cons_eq h
    rw [strip_map_keyValue h2]
    have h3 : e.key = a := congrArg Prod.fst h1
    have h4 : e.value = c := congrArg (fun p : K × Nat × V => p.2.2) h1
    rw [keyValue, h3, h4]

theorem getHitState_strip (s : FbrCache K V C) (k : K) (e : FbrEntry K V) :
    (getHitState s k e).lru.map stripRegion
      = stripRegion (FbrEntry.access e).1 :: (removeKey s.lru k).map stripRegion := by
  show ((move_boundaries _ _ _ _ _ _ _).1).map stripRegion = _
  rw [move_boundaries_strip, List.map_cons]

theorem lruLookup_cons_self {e : FbrEntry K V} {t : List (FbrEntry K V)} {k : K}
    (h : e.key = k) : lruLookup (e :: t) k = some e := by
  simp [lruLookup, List.find?_cons, h]

theorem get_hit_head {s : FbrCache K V C} {k : K} {e : FbrEntry K V}
    (hm : k ∈ s.hash) (hhead : s.lru.head? = some e) (hek : e.key = k) :
    (s.get k).1 = some e.value
      ∧ ((s.get k).2.lru.head?).map keyValue = some (k, e.value)
      ∧ (s.get k).2.hash = s.hash := by
  have hl : lruLookup s.lru k = some e := by
    cases hlru : s.lru with
    | nil => rw [hlru] at hhead; cases hhead
    | cons a t =>
      rw [hlru] at hhead
      rw [List.head?_cons] at hhead
      have : a = e := Option.some.inj hhead
      subst this
      exact lruLookup_cons_self hek
  have hget := get_of_getCore_some (getCore_hit hm hl)
  have hstrip := getHitState_strip s k e
  have haccess : stripRegion (FbrEntry.access e).1 = (k, accessNewCount e, e.value) := by
    rw [FbrEntry.access, stripRegion]
    dsimp only
    rw [hek]
  rw [haccess] at hstrip
  refine ⟨by rw [hget], ?_, ?_⟩
  · rw [hget]
    dsimp only
    by_cases ht : ((getHitState s k e).ageThreshold : Int) < (getHitState s k e).totalCount
    · rw [if_pos ht]
      have hkv : (agePass (getHitState s k e)).lru.map keyValue
          = (k, e.value) :: (removeKey s.lru k).map keyValue := by
        rw [agePass_map_keyValue]
        exact strip_cons_keyValue hstrip
      exact map_keyValue_head hkv
    · rw [if_neg ht]
      exact map_keyValue_head (strip_cons_keyValue hstrip)
  · rw [hget]
    dsimp only
    by_cases ht : ((getHitState s k e).ageThreshold : Int) < (getHitState s k e).totalCount
    · rw [if_pos ht, agePass_hash]
      exact getHitState_hash s k e
    · rw [if_neg ht]
      exact getHitState_hash s k e

theorem head_value_roundtrip {sA : FbrCache K V C} {k : K} {v : V} (v' : V)
    (hmem : k ∈ sA.hash)
    (hhead : (sA.lru.head?).map keyValue = some (k, v)) :
    ((sA.put k v').get k).1 = some v := by
  rcases Option.map_eq_some'.mp hhead with ⟨E, hE, hEkv⟩
  have hEk : E.key = k := congrArg Prod.fst hEkv
  have hEv : E.value = v := congrArg Prod.snd hEkv
  rcases get_hit_head hmem hE hEk with ⟨h1, h2, h3⟩
  have hput : sA.put k v' = (sA.get k).2 := put_of_hit v' h1
  rw [hput]
  rcases Option.map_eq_some'.mp h2 with ⟨EB, hEB, hEBkv⟩
  have hEBk : EB.key = k := congrArg Prod.fst hEBkv
  have hEBv : EB.value = (k, E.value).2 := congrArg Prod.snd hEBkv
  have hmemB : k ∈ (sA.get k).2.hash := by rw [h3]; exact hmem
  rcases get_hit_head hmemB hEB hEBk with ⟨h4, _, _⟩
  rw [h4, hEBv, hEv]

theorem insert_strip_full {s : FbrCache K V C} (k : K) (v : V) (prio : Bool)
    {e : FbrEntry K V} {s1 : FbrCache K V C}
    (hfull : s.capacity ≤ s.hash.length) (hev : s.evict = some (e, s1)) :
    (s.insert k v prio).lru.map stripRegion
      = (k, (if prio then 1 else 0), v) :: s1.lru.map stripRegion := by
  simp only [FbrCache.insert, if_pos hfull, hev]
  rw [move_boundaries_strip, List.map_cons]
  by_cases hp : prio <;> simp [hp, stripRegion]

theorem insert_strip_not_full {s : FbrCache K V C} (k : K) (v : V) (prio : Bool)
    (hlt : s.hash.length < s.capacity) :
    (s.insert k v prio).lru.map stripRegion
      = (k, (if prio then 1 else 0), v) :: s.lru.map stripRegion := by
  simp only [FbrCache.insert, if_neg (Nat.not_le.mpr hlt)]
  rw [move_boundaries_strip, List.map_cons]
  by_cases hp : prio <;> simp [hp, stripRegion]

theorem Reachable_runOps {s : FbrCache K V C} (h : Reachable K V C s)
    (ops : List (Op K V)) : Reachable K V C (runOps s ops) := by
  induction ops generalizing s with
  | nil => exact h
  | cons op rest ih =>
    rw [runOps, List.foldl_cons]
    cases op with
    | get k => exact ih (Reachable.get s k h)
    | put k v => exact ih (Reachable.put s k v h)
    | put_prio k v => exact ih (Reachable.put_prio s k v h)
    | clear => exact ih (Reachable.clear s h)

end MoreLemmas

section ClaimSupport

variable {K V : Type} [DecidableEq K] {C : Nat}

theorem evict_victim_spec {s : FbrCache K V C} {e : FbrEntry K V}
    {s1 : FbrCache K V C} (h : s.evict = some (e, s1)) :
    specVictim s = some e.key := by
  simp only [FbrCache.evict] at h
  cases hscan : scanChainsGo s.lru s.chains with
  | some r =>
    rw [hscan] at h
    dsimp only at h
    have he : r.1 = e := congrArg Prod.fst (Option.some.inj h)
    have hspec : specScanChains s.lru s.chains = some r.1.key := by
      rw [← scanChainsGo_eq_spec, hscan]
      rfl
    simp only [specVictim, hspec]
    rw [he]
  | none =>
    rw [hscan] at h
    dsimp only at h
    have hspec : specScanChains s.lru s.chains = none := by
      rw [← scanChainsGo_eq_spec, hscan]
      rfl
    cases hlast : s.lru.getLast? with
    | none => rw [hlast] at h; cases h
    | some cde =>
      rw [hlast] at h
      dsimp only at h
      have he : cde = e := congrArg Prod.fst (Option.some.inj h)
      simp only [specVictim, hspec, hlast, Option.map_some']
      rw [he]

/-- A small warmed-up cache used by witnesses: capacity 4, `C_MAX = 3`,
aging factor 1, holding the single pair `(1, 10)`. -/
def sCap4 : FbrCache Nat Nat 3 :=
  (FbrCache.with_age_threshold Nat Nat 3 4 1).put 1 10

/-- A full cache used by witnesses: capacity 5, `C_MAX = 3`, aging factor
4, filled with keys `0..4`. -/
def sFull5 : FbrCache Nat Nat 3 :=
  runOps (FbrCache.with_age_threshold Nat Nat 3 5 4)
    [Op.put 0 100, Op.put 1 101, Op.put 2 102, Op.put 3 103, Op.put 4 104]

end ClaimSupport

section Claims

variable {K V : Type} [DecidableEq K] {C : Nat}

/-- C1: for every `put` or `put_prio` of an absent key on a full cache,
the eviction victim is the one described by §4.3: the back of the first
bucket (in ascending order) whose back element's region is `Old`, and the
back of `lru` when no bucket yields a candidate (`specVictim`); the victim
is unlinked from `lru` and its key is removed from the hash, and the new
entry is installed on the evicted state. -/
theorem C1_eviction_policy {s : FbrCache K V C} {k : K} (v : V) (prio : Bool)
    (habs : k ∉ s.hash) (hfull : s.hash.length = s.capacity) (hne : s.lru ≠ []) :
    ∃ e s1, s.evict = some (e, s1)
      ∧ specVictim s = some e.key
      ∧ s1.lru = removeKey s.lru e.key
      ∧ s1.hash = keyRemove s.hash e.key
      ∧ s.put k v = s.insert k v false
      ∧ s.put_prio k v = s.insert k v true
      ∧ (s.insert k v prio).hash = keyInsert s1.hash k
      ∧ (s.insert k v prio).lru.map FbrEntry.key = k :: s1.lru.map FbrEntry.key := by
  rcases evict_total hne with ⟨⟨e, s1⟩, hev⟩
  rcases evict_eq_some hev with ⟨hmem, hhash, hlru, _, _, _, _, _⟩
  have hcap_le : s.capacity ≤ s.hash.length := le_of_eq hfull.symm
  rcases insert_of_full k v prio hcap_le hev with ⟨hh, hm, _⟩
  exact ⟨e, s1, hev, evict_victim_spec hev, hlru, hhash,
    put_of_miss v (getCore_not_mem habs), put_prio_of_miss v (getCore_not_mem habs),
    hh, hm⟩

/-- Witness for C1: a full capacity-5 cache holding keys 0..4, putting
the absent key 5. -/
theorem C1_eviction_policy_witness :
    ∃ e s1, sFull5.evict = some (e, s1)
      ∧ specVictim sFull5 = some e.key
      ∧ s1.lru = removeKey sFull5.lru e.key
      ∧ s1.hash = keyRemove sFull5.hash e.key
      ∧ sFull5.put 5 105 = sFull5.insert 5 105 false
      ∧ sFull5.put_prio 5 105 = sFull5.insert 5 105 true
      ∧ (sFull5.insert 5 105 false).hash = keyInsert s1.hash 5
      ∧ (sFull5.insert 5 105 false).lru.map FbrEntry.key
          = 5 :: s1.lru.map FbrEntry.key :=
  C1_eviction_policy 105 false (by decide) (by decide) (by decide)

/-- C4: the aging pass runs exactly when, at the end of a `get` hit
(after the count delta has been added), `total_count` exceeds
`age_threshold`; it walks `lru` front to back, replacing each count by its
floor-half and subtracting each difference from `total_count`. -/
theorem C4_aging_trigger {s : FbrCache K V C} (k : K)
    (hc : (s.getCore k).isSome = true) :
    ∃ v s1, s.getCore k = some (v, s1)
      ∧ (s.get k).2
          = (if (s1.ageThreshold : Int) < s1.totalCount then agePass s1 else s1)
      ∧ (agePass s1).lru = s1.lru.map (fun e => { e with count := e.count / 2 })
      ∧ (agePass s1).totalCount = s1.totalCount - sumAgeDelta s1.lru := by
  rcases Option.isSome_iff_exists.mp hc with ⟨⟨v, s1⟩, hr⟩
  exact ⟨v, s1, hr, by rw [get_of_getCore_some hr], agePass_lru s1,
    agePass_totalCount s1⟩

/-- Witness for C4: a `get` hit on the warmed-up capacity-4 cache. -/
theorem C4_aging_trigger_witness :
    ∃ v s1, sCap4.getCore 1 = some (v, s1)
      ∧ (sCap4.get 1).2
          = (if (s1.ageThreshold : Int) < s1.totalCount then agePass s1 else s1)
      ∧ (agePass s1).lru = s1.lru.map (fun e => { e with count := e.count / 2 })
      ∧ (agePass s1).totalCount = s1.totalCount - sumAgeDelta s1.lru :=
  C4_aging_trigger 1 (by decide)

/-- C5: the aging pass changes neither the keys nor the regions nor the
order or length of `lru`, leaves the hash key set and both boundaries (and
the values) untouched; only counts, `total_count` and the buckets change. -/
theorem C5_aging_frame (s : FbrCache K V C) :
    (agePass s).lru.map FbrEntry.key = s.lru.map FbrEntry.key
    ∧ (agePass s).lru.map FbrEntry.region = s.lru.map FbrEntry.region
    ∧ (agePass s).lru.length = s.lru.length
    ∧ (agePass s).hash = s.hash
    ∧ (agePass s).midBoundary = s.midBoundary
    ∧ (agePass s).oldBoundary = s.oldBoundary
    ∧ (agePass s).capacity = s.capacity
    ∧ (agePass s).lru.map FbrEntry.value = s.lru.map FbrEntry.value := by
  refine ⟨agePass_map_key s, ?_, agePass_length s, rfl, rfl, rfl, rfl, ?_⟩
  · rw [agePass_lru, List.map_map]
    rfl
  · rw [agePass_lru, List.map_map]
    rfl

/-- C6: after every public operation on any legal call sequence, the hash
size equals the recency-list size and both are at most the capacity. -/
theorem C6_size_invariant {s : FbrCache K V C} (h : Reachable K V C s) :
    s.hash.length = s.lru.length
      ∧ s.hash.length ≤ s.capacity
      ∧ s.lru.length ≤ s.capacity := by
  have hI := Reachable_CacheInv h
  exact ⟨hI.lenEq, by rw [hI.lenEq]; exact hI.lenLe, hI.lenLe⟩

/-- Witness for C6 at a concrete reachable state. -/
theorem C6_size_invariant_witness :
    sCap4.hash.length = sCap4.lru.length
      ∧ sCap4.hash.length ≤ sCap4.capacity
      ∧ sCap4.lru.length ≤ sCap4.capacity :=
  C6_size_invariant
    (Reachable.put _ 1 10 (Reachable.init 4 1 (by decide) (by decide) (by decide)))

/-- C10: `get` of an absent key returns `None` and leaves the whole cache
state unchanged. -/
theorem C10_get_miss_noop {s : FbrCache K V C} {k : K} (h : k ∉ s.hash) :
    s.get k = (none, s) :=
  get_of_getCore_none (getCore_not_mem h)

/-- Witness for C10: key 2 is absent from the warmed-up cache. -/
theorem C10_get_miss_noop_witness : sCap4.get 2 = (none, sCap4) :=
  C10_get_miss_noop (by decide)

end Claims

section Claims2

variable {K V : Type} [DecidableEq K] {C : Nat}

/-- C2: on a `get` hit, the entry's count is incremented by exactly one
when its region is not `New` and kept otherwise, and the entry moves to
the front of `lru` with region `New` (also after the optional aging pass);
the remaining entries keep their relative order, keys, counts and values.
The two side conditions say that no boundary pointer sits on the entry
right behind the promoted one and that the promoted entry is not alone
when it comes from beyond `New`; both hold in every well-formed state. -/
theorem C2_get_hit_update {s : FbrCache K V C} {k : K}
    (hm : k ∈ s.hash)
    (hsome : (lruLookup s.lru k).isSome = true)
    (hmb : (boundaryFixup s.midBoundary s.oldBoundary s.lru k).1 = none
        ∨ (boundaryFixup s.midBoundary s.oldBoundary s.lru k).1
            ≠ ((removeKey s.lru k).head?).map FbrEntry.key)
    (hob : (boundaryFixup s.midBoundary s.oldBoundary s.lru k).2 = none
        ∨ (boundaryFixup s.midBoundary s.oldBoundary s.lru k).2
            ≠ ((removeKey s.lru k).head?).map FbrEntry.key)
    (hne : regionOf s.lru k ≠ some Region.New → removeKey s.lru k ≠ []) :
    ∃ e rest', lruLookup s.lru k = some e
      ∧ s.getCore k = some (e.value, getHitState s k e)
      ∧ accessNewCount e
          = (if e.region = Region.New then e.count else e.count + 1)
      ∧ (getHitState s k e).lru
          = { count := accessNewCount e, region := Region.New,
              key := k, value := e.value } :: rest'
      ∧ rest'.map stripRegion = (removeKey s.lru k).map stripRegion
      ∧ (s.get k).1 = some e.value
      ∧ ((s.get k).2.lru.head?).map (fun x => (x.key, x.region))
          = some (k, Region.New) := by
  rcases Option.isSome_iff_exists.mp hsome with ⟨e, hl⟩
  have hek : e.key = k := (lruLookup_some hl).2
  have hE : (FbrEntry.access e).1
      = { count := accessNewCount e, region := Region.New, key := k, value := e.value } := by
    rw [FbrEntry.access]
    dsimp only
    rw [← hek]
  have hkey : ∀ e' ∈ removeKey s.lru k,
      e'.key ≠ (FbrEntry.access e).1.key := by
    intro e' he'
    rw [hE]
    exact key_ne_of_mem_removeKey he'
  have hmb' : ∀ m, (boundaryFixup s.midBoundary s.oldBoundary s.lru k).1 = some m →
      ((removeKey s.lru k).head?).map FbrEntry.key ≠ some m := by
    intro m hbm heq
    rcases hmb with h0 | h0
    · rw [h0] at hbm; cases hbm
    · exact h0 (hbm.trans heq.symm)
  have hob' : ∀ o, (boundaryFixup s.midBoundary s.oldBoundary s.lru k).2 = some o →
      ((removeKey s.lru k).head?).map FbrEntry.key ≠ some o := by
    intro o hbo heq
    rcases hob with h0 | h0
    · rw [h0] at hbo; cases hbo
    · exact h0 (hbo.trans heq.symm)
  have hrest : Region.New.idx < e.region.idx → removeKey s.lru k ≠ [] := by
    intro hidx
    apply hne
    rw [regionOf, hl, Option.map_some']
    intro hcontra
    have hnew : e.region = Region.New := Option.some.inj hcontra
    rw [hnew] at hidx
    simp [Region.idx] at hidx
  rcases move_boundaries_cons e.region s.hash.length s.mid s.old
      (FbrEntry.access e).1 (removeKey s.lru k)
      (boundaryFixup s.midBoundary s.oldBoundary s.lru k).1
      (boundaryFixup s.midBoundary s.oldBoundary s.lru k).2
      hkey hmb' hob' hrest with ⟨rest', hcons, hstripr⟩
  have hlru : (getHitState s k e).lru
      = { count := accessNewCount e, region := Region.New,
          key := k, value := e.value } :: rest' := by
    show (move_boundaries e.region s.hash.length s.mid s.old
        ((FbrEntry.access e).1 :: removeKey s.lru k) _ _).1 = _
    rw [hcons, hE]
  refine ⟨e, rest', hl, getCore_hit hm hl, ?_, hlru, hstripr, ?_, ?_⟩
  · by_cases hreg : e.region = Region.New <;> simp [accessNewCount, hreg]
  · rw [get_of_getCore_some (getCore_hit hm hl)]
  · rw [get_of_getCore_some (getCore_hit hm hl)]
    dsimp only
    by_cases ht : ((getHitState s k e).ageThreshold : Int)
        < (getHitState s k e).totalCount
    · rw [if_pos ht, agePass_lru, hlru, List.map_cons, List.head?_cons,
        Option.map_some']
    · rw [if_neg ht, hlru, List.head?_cons, Option.map_some']

/-- Witness for C2: a `get` hit on the Old-region key 0 of the full
capacity-5 cache. -/
theorem C2_get_hit_update_witness :
    ∃ e rest', lruLookup sFull5.lru 0 = some e
      ∧ sFull5.getCore 0 = some (e.value, getHitState sFull5 0 e)
      ∧ accessNewCount e
          = (if e.region = Region.New then e.count else e.count + 1)
      ∧ (getHitState sFull5 0 e).lru
          = { count := accessNewCount e, region := Region.New,
              key := 0, value := e.value } :: rest'
      ∧ rest'.map stripRegion = (removeKey sFull5.lru 0).map stripRegion
      ∧ (sFull5.get 0).1 = some e.value
      ∧ ((sFull5.get 0).2.lru.head?).map (fun x => (x.key, x.region))
          = some (0, Region.New) :=
  C2_get_hit_update (by decide) (by decide) (by decide) (by decide) (by decide)

/-- C3: a `put` (or `put_prio`) of a key that is present behaves exactly
like `get` and keeps the stored value, so on a fresh key the sequence
`put k v; put k v'` leaves `get k = v`. -/
theorem C3_put_no_overwrite {s : FbrCache K V C} {k : K} (v v' w : V) :
    ((s.get k).1 = some w →
        s.put k v' = (s.get k).2 ∧ s.put_prio k v' = (s.get k).2)
    ∧ (Reachable K V C s → (s.get k).1 = none →
        (((s.put k v).put k v').get k).1 = some v) := by
  constructor
  · intro h
    exact ⟨put_of_hit v' h, put_prio_of_hit v' h⟩
  · intro hr hmiss
    have hI := Reachable_CacheInv hr
    have hc := getCore_of_get_none hmiss
    have hk : k ∉ s.hash := by
      rcases getCore_none_cases hc with h | h
      · exact h
      · intro hmem
        rcases lruLookup_of_mem ((hI.memIff k).mp hmem) with ⟨e, he⟩
        rw [he] at h
        cases h
    rw [put_of_miss v hc]
    by_cases hfull : s.capacity ≤ s.hash.length
    · have hlru_ne : s.lru ≠ [] := by
        intro hnil
        have h0 : s.hash.length = 0 := by rw [hI.lenEq, hnil]; rfl
        have := hI.capPos
        omega
      rcases evict_total hlru_ne with ⟨⟨e0, s1⟩, hev⟩
      have hstrip := insert_strip_full k v false hfull hev
      have hmem : k ∈ (s.insert k v false).hash := by
        rcases insert_of_full k v false hfull hev with ⟨hh, _, _⟩
        rw [hh]
        exact mem_keyInsert.mpr (Or.inl rfl)
      exact head_value_roundtrip v' hmem (strip_head_keyValue hstrip)
    · have hlt := Nat.lt_of_not_le hfull
      have hstrip := insert_strip_not_full k v false hlt
      have hmem : k ∈ (s.insert k v false).hash := by
        rcases insert_of_not_full k v false hlt with ⟨hh, _, _⟩
        rw [hh]
        exact mem_keyInsert.mpr (Or.inl rfl)
      exact head_value_roundtrip v' hmem (strip_head_keyValue hstrip)

/-- Witness for C3: the refresh half on the warmed-up cache holding
`(1, 10)`, and the no-overwrite round trip `put 2 20; put 2 21; get 2`
from a fresh cache. -/
theorem C3_put_no_overwrite_witness :
    (sCap4.put 1 77 = (sCap4.get 1).2 ∧ sCap4.put_prio 1 77 = (sCap4.get 1).2)
    ∧ ((((FbrCache.with_age_threshold Nat Nat 3 4 1).put 2 20).put 2 21).get 2).1
        = some 20 := by
  constructor
  · exact (C3_put_no_overwrite (s := sCap4) (k := 1) 0 77 10).1 (by decide)
  · exact (C3_put_no_overwrite (s := FbrCache.with_age_threshold Nat Nat 3 4 1)
      (k := 2) 20 21 0).2
      (Reachable.init 4 1 (by decide) (by decide) (by decide)) (by decide)

end Claims2

section Claims3

/-- Operation sequence exhibiting the aging-pass bucket reordering: five
rounds of `put 1..5` (capacity 5, aging factor 4), then one `get 1`, whose
aging pass re-homes every entry into bucket 2. -/
def c7Ops : List (Op Nat Nat) :=
  (List.range 5).flatMap
    (fun _ => [1, 2, 3, 4, 5].map (fun i => Op.put i i)) ++ [Op.get 1]

/-- The state reached by `c7Ops`. -/
def c7State : FbrCache Nat Nat 3 :=
  runOps (FbrCache.with_age_threshold Nat Nat 3 5 4) c7Ops

set_option maxRecDepth 40000 in
/-- C7 fails on the code: after the aging pass of the final `get`, bucket
2 holds the keys in the order `[2, 3, 4, 5, 1]` while `lru` reads
`[1, 5, 4, 3, 2]` front to back — the bucket is in reversed relative
order, because the aging loop walks `lru` front to back and pushes each
re-homed entry onto the front of its new bucket.  So the bucket is not an
order-preserving subsequence of `lru` after this public operation. -/
theorem C7_chain_order_bug :
    Reachable Nat Nat 3 c7State
    ∧ c7State.lru.map FbrEntry.key = [1, 5, 4, 3, 2]
    ∧ chainGet c7State.chains 2 = [2, 3, 4, 5, 1]
    ∧ isSubseq (chainGet c7State.chains 2) (c7State.lru.map FbrEntry.key) = false := by
  refine ⟨Reachable_runOps
    (Reachable.init 5 4 (by decide) (by decide) (by decide)) c7Ops, ?_, ?_, ?_⟩
  · decide
  · decide
  · decide

set_option maxRecDepth 40000 in
/-- C8 fails on the code: constructing with `capacity = 2 < 4` does not
fail; it returns a perfectly usable cache (here it stores and retrieves a
value and reports its length). -/
theorem C8_counterexample_usable :
    (FbrCache.with_age_threshold Nat Nat 8 2 1).capacity = 2
    ∧ (((FbrCache.with_age_threshold Nat Nat 8 2 1).put 7 42).get 7).1 = some 42
    ∧ ((FbrCache.with_age_threshold Nat Nat 8 2 1).put 7 42).len = 1 := by
  refine ⟨rfl, ?_, ?_⟩
  · decide
  · decide

/-- C8 amended: the constructor checks none of the documented
requirements (`C_MAX ≥ 2`, `capacity ≥ 4`, `aging_factor ≥ 1`); for every
argument combination it returns an empty cache with the requested
capacity and `age_threshold = capacity * aging_factor` (saturating). -/
theorem C8_amended_no_validation (K V : Type) [DecidableEq K]
    (C capacity factor : Nat) :
    (FbrCache.with_age_threshold K V C capacity factor).hash = []
    ∧ (FbrCache.with_age_threshold K V C capacity factor).lru = []
    ∧ (FbrCache.with_age_threshold K V C capacity factor).capacity = capacity
    ∧ (FbrCache.with_age_threshold K V C capacity factor).ageThreshold
        = min (capacity * factor) (2 ^ 64 - 1)
    ∧ (FbrCache.with_age_threshold K V C capacity factor).len = 0 :=
  ⟨rfl, rfl, rfl, rfl, rfl⟩

/-- Operation sequence driving `total_count` below zero: four priority
inserts (whose count bumps never enter `total_count`) followed by five
hits on a capacity-4 cache with aging factor 1. -/
def c9Ops : List (Op Nat Nat) :=
  [Op.put_prio 0 0, Op.put_prio 1 1, Op.put_prio 2 2, Op.put_prio 3 3,
   Op.get 0, Op.get 1, Op.get 0, Op.get 1, Op.get 2]

/-- The state reached by all of `c9Ops` but the final `get`. -/
def c9Pre : FbrCache Nat Nat 3 :=
  runOps (FbrCache.with_age_threshold Nat Nat 3 4 1) (c9Ops.take 8)

/-- The state reached by `c9Ops`. -/
def c9State : FbrCache Nat Nat 3 :=
  runOps (FbrCache.with_age_threshold Nat Nat 3 4 1) c9Ops

set_option maxRecDepth 40000 in
/-- C9 fails on the code: at the final `get` the aging pass is entered
with `total_count = 5` (threshold 4) while the counts it is about to halve
sum to a decrement of 6, so the running `total_count -= delta` underflows
the `usize`; in the `Int` model the reachable end state has
`total_count = -1`. -/
theorem C9_total_count_underflow :
    Reachable Nat Nat 3 c9State
    ∧ (c9Pre.getCore 2).map
        (fun r => (r.2.totalCount, (r.2.ageThreshold : Int), sumAgeDelta r.2.lru))
        = some (5, 4, 6)
    ∧ c9State = (c9Pre.get 2).2
    ∧ c9State.totalCount = -1 := by
  refine ⟨Reachable_runOps
    (Reachable.init 4 1 (by decide) (by decide) (by decide)) c9Ops, ?_, ?_, ?_⟩
  · decide
  · decide
  · decide

end Claims3
